import Mathlib

/-!
Verification of the fire-fasta Multi-FASTA parser (src/lib.rs).

Bytes are modelled as `Nat` (the code only ever compares bytes against
the two marker values `0x3E` = 62 =b-greater-than and `0x0A` = 10 = LF).
Buffers and borrowed spans are modelled as `List Nat`; a Rust slice
`&data[a..b]` becomes `(data.drop a).take (b - a)`.

Operations that can panic in Rust (out-of-range slicing / indexing,
usize subtraction underflow, `copy_from_slice` with mismatched lengths)
are modelled as `Option`-returning checked operations; `none` models a
panic. Both `parse_fasta` and `copy_sequential` are therefore
`Option`-valued, and the safety claim is that they never return `none`.
-/

namespace FireFasta

/-- Model of `memchr::memchr`: index of the first occurrence of `needle`
in `haystack`, or `none`. -/
def memchr (needle : Nat) : List Nat → Option Nat
  | [] => none
  | b :: rest =>
    if b = needle then some 0 else (memchr needle rest).map (fun i => i + 1)

/-- Checked `usize` subtraction `a - b`: panics (`none`) on underflow. -/
def checkedSub (a b : Nat) : Option Nat :=
  if b ≤ a then some (a - b) else none

/-- Checked slicing `&l[a..b]`: panics (`none`) unless `a ≤ b ≤ l.length`. -/
def checkedSlice (l : List Nat) (a b : Nat) : Option (List Nat) :=
  if a ≤ b ∧ b ≤ l.length then some ((l.drop a).take (b - a)) else none

/-- Checked `buffer[a..b].copy_from_slice(src)`: panics (`none`) unless
`a ≤ b ≤ buffer.length` and `src` has exactly the length of the target
range. -/
def checkedCopy (buffer : List Nat) (a b : Nat) (src : List Nat) : Option (List Nat) :=
  if a ≤ b ∧ b ≤ buffer.length ∧ src.length = b - a then
    some (buffer.take a ++ src ++ buffer.drop b)
  else none

/-- Model of `FastaSequence<'a>`: the two borrowed spans, as byte lists. -/
structure FastaSequence where
  description : List Nat
  sequence : List Nat
  deriving DecidableEq

/-- Model of `Fasta<'a>`. -/
structure Fasta where
  sequences : List FastaSequence
  deriving DecidableEq

/-- Model of `ParseError`. -/
inductive ParseError where
  | invalidDescription (invalid : Nat)
  | emptySequence
  deriving DecidableEq

/-- Model of `FastaSequence::size_hint`. -/
def FastaSequence.size_hint (self : FastaSequence) : Nat :=
  self.sequence.length

/-- Model of `FastaSequence::iter().copied().collect()`: the sequence
span with every LF byte filtered out on the fly. -/
def FastaSequence.iter (self : FastaSequence) : List Nat :=
  self.sequence.filter (fun x => x ≠ 10)

/-- The loop of `FastaSequence::copy_sequential`, carrying the output
`buffer`, write offset `target` and read offset `pos`. Returns the final
buffer and write offset; `none` models a panic. -/
def copyLoop (sequence buffer : List Nat) (target pos : Nat) : Option (List Nat × Nat) := do
  let tail ← checkedSlice sequence pos sequence.length
  let fallback ← checkedSub sequence.length pos
  let pivot := (memchr 10 tail).getD fallback
  let src ← checkedSlice sequence pos (pos + pivot)
  let buffer2 ← checkedCopy buffer target (target + pivot) src
  if h : pos + pivot + 1 ≥ sequence.length then
    return (buffer2, target + pivot)
  else
    copyLoop sequence buffer2 (target + pivot) (pos + pivot + 1)
  termination_by sequence.length - pos
  decreasing_by omega

/-- Model of `FastaSequence::copy_sequential`: allocate a zeroed buffer of
`size_hint` bytes, run the copy loop, then truncate to the bytes written. -/
def FastaSequence.copy_sequential (self : FastaSequence) : Option (List Nat) := do
  let r ← copyLoop self.sequence (List.replicate self.size_hint 0) 0 0
  return r.1.take r.2

/-- The main loop of `parse_fasta`, from byte offset `cursor`. The first
indexing step `data.get? cursor` is `expect`'s `data[*cursor]`; `none`
models a panic. Records are returned in file order. -/
def parseLoop (data : List Nat) (cursor : Nat) :
    Option (Except ParseError (List FastaSequence)) := do
  let b ← data.get? cursor
  if b ≠ 62 then
    return Except.error (ParseError.invalidDescription b)
  else
    let tail ← checkedSlice data (cursor + 1) data.length
    let fallback ← checkedSub data.length (cursor + 1)
    let header_end := (memchr 10 tail).getD fallback
    let description ← checkedSlice data (cursor + 1) (cursor + 1 + header_end)
    if h1 : cursor + 1 + header_end + 1 ≥ data.length then
      return Except.error ParseError.emptySequence
    else
      let tail2 ← checkedSlice data (cursor + 1 + header_end + 1) data.length
      let fallback2 ← checkedSub data.length (cursor + 1 + header_end + 1)
      let sequence_end := (memchr 62 tail2).getD fallback2
      let sequence ← checkedSlice data (cursor + 1 + header_end + 1)
        (cursor + 1 + header_end + 1 + sequence_end)
      if h2 : cursor + 1 + header_end + 1 + sequence_end ≥ data.length then
        return Except.ok [⟨description, sequence⟩]
      else
        let rest ← parseLoop data (cursor + 1 + header_end + 1 + sequence_end)
        match rest with
        | Except.ok l => return Except.ok (⟨description, sequence⟩ :: l)
        | Except.error e => return Except.error e
  termination_by data.length - cursor
  decreasing_by omega

/-- Model of `parse_fasta`. -/
def parse_fasta (data : List Nat) : Option (Except ParseError Fasta) :=
  if data.isEmpty then some (Except.ok ⟨[]⟩)
  else
    match parseLoop data 0 with
    | none => none
    | some (Except.error e) => some (Except.error e)
    | some (Except.ok sequences) => some (Except.ok ⟨sequences⟩)

/-- The original bytes a parsed record was carved from: the leading `>`,
the description span, the terminating LF of the description line, and the
raw sequence span. -/
def record_bytes (r : FastaSequence) : List Nat :=
  62 :: r.description ++ 10 :: r.sequence

/-- The body of one iteration of the `parse_fasta` loop whose `expect`
succeeded, with all in-bounds checks discharged; used as a stepping stone
via `parseLoop_eq_of_marker`. -/
def parseStep (data : List Nat) (cursor : Nat) :
    Option (Except ParseError (List FastaSequence)) :=
  let header_end := (memchr 10 (data.drop (cursor + 1))).getD (data.length - (cursor + 1))
  if cursor + 1 + header_end + 1 ≥ data.length then
    some (Except.error ParseError.emptySequence)
  else
    let sequence_end := (memchr 62 (data.drop (cursor + 1 + header_end + 1))).getD
      (data.length - (cursor + 1 + header_end + 1))
    if cursor + 1 + header_end + 1 + sequence_end ≥ data.length then
      some (Except.ok [⟨(data.drop (cursor + 1)).take header_end,
        (data.drop (cursor + 1 + header_end + 1)).take sequence_end⟩])
    else
      (parseLoop data (cursor + 1 + header_end + 1 + sequence_end)).bind fun rest =>
        match rest with
        | Except.ok l => some (Except.ok (⟨(data.drop (cursor + 1)).take header_end,
            (data.drop (cursor + 1 + header_end + 1)).take sequence_end⟩ :: l))
        | Except.error e => some (Except.error e)

/-! ### Fuel-bounded variants of the two loops

The loops are defined by well-founded recursion on the distance from the
cursor to the end of the buffer; the fueled variants below make the
iteration bound explicit: they run the same body but give up (`none`)
when the iteration budget hits zero. The equivalence theorems show that a
budget of one more than the remaining length always suffices — the
cursor strictly increases each iteration, so both loops terminate after
at most linearly many iterations. -/

/-- `parseLoop` restricted to `fuel` iterations. -/
def parseLoopF (data : List Nat) :
    Nat → Nat → Option (Except ParseError (List FastaSequence))
  | 0, _ => none
  | fuel + 1, cursor => do
    let b ← data.get? cursor
    if b ≠ 62 then
      return Except.error (ParseError.invalidDescription b)
    else
      let tail ← checkedSlice data (cursor + 1) data.length
      let fallback ← checkedSub data.length (cursor + 1)
      let header_end := (memchr 10 tail).getD fallback
      let description ← checkedSlice data (cursor + 1) (cursor + 1 + header_end)
      if h1 : cursor + 1 + header_end + 1 ≥ data.length then
        return Except.error ParseError.emptySequence
      else
        let tail2 ← checkedSlice data (cursor + 1 + header_end + 1) data.length
        let fallback2 ← checkedSub data.length (cursor + 1 + header_end + 1)
        let sequence_end := (memchr 62 tail2).getD fallback2
        let sequence ← checkedSlice data (cursor + 1 + header_end + 1)
          (cursor + 1 + header_end + 1 + sequence_end)
        if h2 : cursor + 1 + header_end + 1 + sequence_end ≥ data.length then
          return Except.ok [⟨description, sequence⟩]
        else
          let rest ← parseLoopF data fuel (cursor + 1 + header_end + 1 + sequence_end)
          match rest with
          | Except.ok l => return Except.ok (⟨description, sequence⟩ :: l)
          | Except.error e => return Except.error e

/-- `copyLoop` restricted to `fuel` iterations. -/
def copyLoopF (s : List Nat) : Nat → List Nat → Nat → Nat → Option (List Nat × Nat)
  | 0, _, _, _ => none
  | fuel + 1, buffer, target, pos => do
    let tail ← checkedSlice s pos s.length
    let fallback ← checkedSub s.length pos
    let pivot := (memchr 10 tail).getD fallback
    let src ← checkedSlice s pos (pos + pivot)
    let buffer2 ← checkedCopy buffer target (target + pivot) src
    if h : pos + pivot + 1 ≥ s.length then
      return (buffer2, target + pivot)
    else
      copyLoopF s fuel buffer2 (target + pivot) (pos + pivot + 1)

/-! ### Properties of `memchr` -/

theorem memchr_eq_none {needle : Nat} :
    ∀ {l : List Nat}, memchr needle l = none ↔ needle ∉ l := by
  intro l
  induction l with
  | nil => simp [memchr]
  | cons b rest ih =>
    by_cases hb : b = needle
    · subst hb
      simp [memchr]
    · rw [memchr, if_neg hb, Option.map_eq_none', ih]
      constructor
      · intro h hmem
        rcases List.mem_cons.mp hmem with h1 | h2
        · exact hb h1.symm
        · exact h h2
      · intro h hmem
        exact h (List.mem_cons_of_mem _ hmem)

theorem memchr_eq_some {needle : Nat} :
    ∀ {l : List Nat} {i : Nat}, memchr needle l = some i →
      i < l.length ∧ l.get? i = some needle ∧ needle ∉ l.take i := by
  intro l
  induction l with
  | nil => intro i h; simp [memchr] at h
  | cons b rest ih =>
    intro i h
    by_cases hb : b = needle
    · subst hb
      simp [memchr] at h
      subst h
      simp
    · rw [memchr, if_neg hb] at h
      rcases Option.map_eq_some'.mp h with ⟨j, hj, hji⟩
      subst hji
      obtain ⟨h1, h2, h3⟩ := ih hj
      refine ⟨by simpa using h1, by simpa using h2, ?_⟩
      intro hmem
      rw [List.take_succ_cons] at hmem
      rcases List.mem_cons.mp hmem with hc | hc
      · exact hb hc.symm
      · exact h3 hc

theorem memchr_first_at {needle : Nat} :
    ∀ {l rest : List Nat}, needle ∉ l →
      memchr needle (l ++ needle :: rest) = some l.length := by
  intro l
  induction l with
  | nil => intro rest _; simp [memchr]
  | cons b t ih =>
    intro rest h
    have hb : b ≠ needle := fun hc => h (by simp [hc])
    have ht : needle ∉ t := fun hc => h (by simp [hc])
    simp [memchr, if_neg hb, ih ht]

/-- The fallback form `memchr(b, l).unwrap_or(l.len())` never exceeds the
haystack length. -/
theorem memchr_getD_le {needle : Nat} {l : List Nat} :
    (memchr needle l).getD l.length ≤ l.length := by
  cases hm : memchr needle l with
  | none => simp
  | some i => simpa using le_of_lt (memchr_eq_some hm).1

/-! ### Properties of the checked operations -/

theorem checkedSub_eq {a b : Nat} (h : b ≤ a) : checkedSub a b = some (a - b) := by
  simp [checkedSub, h]

theorem checkedSlice_eq {l : List Nat} {a b : Nat} (h1 : a ≤ b) (h2 : b ≤ l.length) :
    checkedSlice l a b = some ((l.drop a).take (b - a)) := by
  simp [checkedSlice, h1, h2]

/-- Slicing from `a` to the end yields the drop. -/
theorem checkedSlice_all {l : List Nat} {a : Nat} (h : a ≤ l.length) :
    checkedSlice l a l.length = some (l.drop a) := by
  rw [checkedSlice_eq h le_rfl]
  congr 1
  exact List.take_of_length_le (by simp)

theorem checkedCopy_eq {buffer src : List Nat} {a b : Nat}
    (h1 : a ≤ b) (h2 : b ≤ buffer.length) (h3 : src.length = b - a) :
    checkedCopy buffer a b src = some (buffer.take a ++ src ++ buffer.drop b) := by
  simp [checkedCopy, h1, h2, h3]

theorem drop_eq_cons_of_get? :
    ∀ {l : List Nat} {n a : Nat}, l.get? n = some a →
      l.drop n = a :: l.drop (n + 1) := by
  intro l
  induction l with
  | nil => intro n a h; simp at h
  | cons x t ih =>
    intro n a h
    cases n with
    | zero => simp at h; simp [h]
    | succ m =>
      have : t.drop m = a :: t.drop (m + 1) := ih (by simpa using h)
      simpa using this

/-! ### One-step unfoldings of the two loops -/

theorem parseLoop_eq_of_marker {data : List Nat} {cursor : Nat}
    (hlt : cursor < data.length) (hg : data.get? cursor = some 62) :
    parseLoop data cursor = parseStep data cursor := by
  have hc1 : cursor + 1 ≤ data.length := hlt
  have hhe : (memchr 10 (data.drop (cursor + 1))).getD ((data.drop (cursor + 1)).length)
      ≤ (data.drop (cursor + 1)).length := memchr_getD_le
  rw [List.length_drop] at hhe
  rw [parseLoop, hg, parseStep]
  simp only [Option.bind_eq_bind, Option.some_bind, Option.pure_def]
  rw [if_neg (by omega : ¬(62 ≠ 62))]
  rw [checkedSlice_all hc1, checkedSub_eq hc1]
  simp only [Option.bind_eq_bind, Option.some_bind]
  rw [checkedSlice_eq (by omega) (by omega)]
  simp only [Option.bind_eq_bind, Option.some_bind, Nat.add_sub_cancel_left]
  by_cases h1 : cursor + 1 +
      (memchr 10 (data.drop (cursor + 1))).getD (data.length - (cursor + 1)) + 1
      ≥ data.length
  · rw [dif_pos h1, if_pos h1]
  · rw [dif_neg h1, if_neg h1]
    have hc2 : cursor + 1 +
        (memchr 10 (data.drop (cursor + 1))).getD (data.length - (cursor + 1)) + 1
        ≤ data.length := by omega
    have hse : (memchr 62 (data.drop (cursor + 1 +
        (memchr 10 (data.drop (cursor + 1))).getD (data.length - (cursor + 1)) + 1))).getD
        ((data.drop (cursor + 1 +
          (memchr 10 (data.drop (cursor + 1))).getD (data.length - (cursor + 1)) + 1)).length)
        ≤ (data.drop (cursor + 1 +
          (memchr 10 (data.drop (cursor + 1))).getD (data.length - (cursor + 1)) + 1)).length :=
      memchr_getD_le
    rw [List.length_drop] at hse
    rw [checkedSlice_all hc2, checkedSub_eq hc2]
    simp only [Option.bind_eq_bind, Option.some_bind]
    rw [checkedSlice_eq (by omega) (by omega)]
    simp only [Option.bind_eq_bind, Option.some_bind, Nat.add_sub_cancel_left]
    rw [dite_eq_ite]

theorem parseLoop_eq_of_invalid {data : List Nat} {cursor b : Nat}
    (hg : data.get? cursor = some b) (hb : b ≠ 62) :
    parseLoop data cursor = some (Except.error (ParseError.invalidDescription b)) := by
  rw [parseLoop, hg]
  simp only [Option.bind_eq_bind, Option.some_bind, Option.pure_def]
  rw [if_pos hb]

/-! ### Master invariant of the parse loop -/

/-- From any in-bounds cursor: the loop never panics; on success, the
records tile `data.drop cursor` exactly (each record contributing
`record_bytes`, i.e. its leading marker, description span, the
description's terminating LF, and raw sequence span); no record sequence
span contains a `>` and no description span contains an LF; and if the
cursor sits on a marker, the result is never an `InvalidDescription`
error. -/
theorem parseLoop_spec (data : List Nat) :
    ∀ n cursor, data.length - cursor ≤ n → cursor < data.length →
      ∃ r, parseLoop data cursor = some r ∧
        (∀ l, r = Except.ok l →
            (l.map record_bytes).flatten = data.drop cursor ∧
            ∀ rec ∈ l, 62 ∉ rec.sequence ∧ 10 ∉ rec.description) ∧
        (data.get? cursor = some 62 →
            ∀ b, r ≠ Except.error (ParseError.invalidDescription b)) := by
  intro n
  induction n with
  | zero => intro cursor h1 h2; omega
  | succ n ih =>
    intro cursor hle hlt
    cases hg : data.get? cursor with
    | none =>
      have := List.get?_eq_none.mp hg
      omega
    | some b =>
      by_cases hb : b = 62
      · subst hb
        have hdropc : data.drop cursor = 62 :: data.drop (cursor + 1) :=
          drop_eq_cons_of_get? hg
        rw [parseLoop_eq_of_marker hlt hg, parseStep]
        cases hm : memchr 10 (data.drop (cursor + 1)) with
        | none =>
          simp only [Option.getD_none]
          rw [if_pos (by omega)]
          refine ⟨Except.error ParseError.emptySequence, rfl, ?_, ?_⟩
          · intro l hl; cases hl
          · intro _ b hne; cases hne
        | some i =>
          obtain ⟨hi_lt, hi_get, hi_take⟩ := memchr_eq_some hm
          rw [List.length_drop] at hi_lt
          rw [List.get?_drop] at hi_get
          have hu : data.drop (cursor + 1) =
              (data.drop (cursor + 1)).take i ++ 10 :: data.drop (cursor + 1 + i + 1) := by
            conv_lhs => rw [← List.take_append_drop i (data.drop (cursor + 1))]
            congr 1
            rw [List.drop_drop]
            exact drop_eq_cons_of_get? hi_get
          simp only [Option.getD_some]
          by_cases h1 : cursor + 1 + i + 1 ≥ data.length
          · rw [if_pos h1]
            refine ⟨Except.error ParseError.emptySequence, rfl, ?_, ?_⟩
            · intro l hl; cases hl
            · intro _ b hne; cases hne
          · rw [if_neg h1]
            cases hm2 : memchr 62 (data.drop (cursor + 1 + i + 1)) with
            | none =>
              have h62 : (62 : Nat) ∉ data.drop (cursor + 1 + i + 1) :=
                memchr_eq_none.mp hm2
              simp only [Option.getD_none]
              rw [if_pos (by omega)]
              have hseq : (data.drop (cursor + 1 + i + 1)).take
                  (data.length - (cursor + 1 + i + 1)) = data.drop (cursor + 1 + i + 1) :=
                List.take_of_length_le (by simp)
              refine ⟨_, rfl, ?_, by simp⟩
              intro l hl
              obtain rfl : l = _ := (Except.ok.inj hl).symm
              constructor
              · simp only [List.map_cons, List.map_nil, List.flatten_cons,
                  List.flatten_nil, List.append_nil, record_bytes, hseq]
                rw [hdropc]
                conv_rhs => rw [hu]
                simp [List.cons_append]
              · intro rec hrec
                obtain rfl : rec = _ := List.mem_singleton.mp hrec
                exact ⟨by simpa [hseq] using h62, hi_take⟩
            | some j =>
              obtain ⟨hj_lt, hj_get, hj_take⟩ := memchr_eq_some hm2
              rw [List.length_drop] at hj_lt
              rw [List.get?_drop] at hj_get
              simp only [Option.getD_some]
              rw [if_neg (by omega)]
              obtain ⟨r', hr', hok', hmark'⟩ := ih (cursor + 1 + i + 1 + j) (by omega) (by omega)
              rw [hr']
              simp only [Option.some_bind]
              have hseq : data.drop (cursor + 1 + i + 1) =
                  (data.drop (cursor + 1 + i + 1)).take j ++
                    data.drop (cursor + 1 + i + 1 + j) := by
                conv_lhs => rw [← List.take_append_drop j (data.drop (cursor + 1 + i + 1))]
                congr 1
                rw [List.drop_drop]
              cases r' with
              | ok l' =>
                obtain ⟨hjoin, hmem⟩ := hok' l' rfl
                refine ⟨_, rfl, ?_, by simp⟩
                intro l hl
                obtain rfl : l = _ := (Except.ok.inj hl).symm
                constructor
                · simp only [List.map_cons, List.flatten_cons, record_bytes]
                  rw [hjoin, hdropc]
                  conv_rhs => rw [hu, hseq]
                  simp [List.cons_append, List.append_assoc]
                · intro rec hrec
                  rcases List.mem_cons.mp hrec with hrec | hrec
                  · subst hrec
                    exact ⟨hj_take, hi_take⟩
                  · exact hmem rec hrec
              | error e =>
                refine ⟨Except.error e, rfl, ?_, ?_⟩
                · intro l hl; cases hl
                · intro _ b
                  exact hmark' hj_get b
      · refine ⟨Except.error (ParseError.invalidDescription b), ?_, ?_, ?_⟩
        · exact parseLoop_eq_of_invalid hg hb
        · intro l hl; cases hl
        · intro h62
          exact absurd (Option.some.inj h62) hb

/-! ### Master invariant of the copy loop -/

theorem copyLoop_eq {s buffer : List Nat} {target pos : Nat}
    (hp : pos ≤ s.length) (ht : target ≤ pos) (hb : buffer.length = s.length) :
    copyLoop s buffer target pos =
      if pos + (memchr 10 (s.drop pos)).getD (s.length - pos) + 1 ≥ s.length then
        some (buffer.take target ++
          (s.drop pos).take ((memchr 10 (s.drop pos)).getD (s.length - pos)) ++
          buffer.drop (target + (memchr 10 (s.drop pos)).getD (s.length - pos)),
          target + (memchr 10 (s.drop pos)).getD (s.length - pos))
      else
        copyLoop s
          (buffer.take target ++
            (s.drop pos).take ((memchr 10 (s.drop pos)).getD (s.length - pos)) ++
            buffer.drop (target + (memchr 10 (s.drop pos)).getD (s.length - pos)))
          (target + (memchr 10 (s.drop pos)).getD (s.length - pos))
          (pos + (memchr 10 (s.drop pos)).getD (s.length - pos) + 1) := by
  have hpiv : (memchr 10 (s.drop pos)).getD ((s.drop pos).length) ≤ (s.drop pos).length :=
    memchr_getD_le
  rw [List.length_drop] at hpiv
  rw [copyLoop]
  rw [checkedSlice_all hp, checkedSub_eq hp]
  simp only [Option.bind_eq_bind, Option.some_bind]
  rw [checkedSlice_eq (by omega) (by omega)]
  simp only [Option.bind_eq_bind, Option.some_bind, Nat.add_sub_cancel_left]
  rw [checkedCopy_eq (by omega)
    (by rw [hb]; omega)
    (by rw [List.length_take, List.length_drop]; omega)]
  simp only [Option.bind_eq_bind, Option.some_bind, Option.pure_def, Nat.add_sub_cancel_left]
  rw [dite_eq_ite]

/-- Loop invariant of `copy_sequential`: if the `target` bytes written so
far are exactly the LF-free image of the first `pos` input bytes, the
loop completes without panicking and the final `target`-prefix of the
buffer is the LF-free image of the whole span. -/
theorem copyLoop_filter (s : List Nat) :
    ∀ n pos target buffer, s.length - pos ≤ n → pos ≤ s.length →
      buffer.length = s.length →
      target = ((s.take pos).filter (fun x => x ≠ 10)).length →
      buffer.take target = (s.take pos).filter (fun x => x ≠ 10) →
      ∃ buf tgt, copyLoop s buffer target pos = some (buf, tgt) ∧
        buf.take tgt = s.filter (fun x => x ≠ 10) := by
  intro n
  induction n with
  | zero =>
    intro pos target buffer hn hp hb htg htk
    have hpos : pos = s.length := by omega
    subst hpos
    have htlen : target ≤ s.length := by
      have := List.length_filter_le (fun x => decide (x ≠ 10)) (s.take s.length)
      simp only [List.length_take] at this
      omega
    rw [copyLoop_eq le_rfl htlen hb]
    rw [List.drop_length]
    simp only [memchr, Option.getD_none, Nat.sub_self, List.take_nil,
      List.append_nil, Nat.add_zero]
    rw [if_pos (by omega)]
    refine ⟨_, _, rfl, ?_⟩
    rw [List.take_append_drop, htk, List.take_length]
  | succ n ih =>
    intro pos target buffer hn hp hb htg htk
    have htlen : target ≤ pos := by
      have := List.length_filter_le (fun x => decide (x ≠ 10)) (s.take pos)
      simp only [List.length_take] at this
      omega
    rw [copyLoop_eq hp htlen hb]
    have hAlen : (buffer.take target).length = target := by
      rw [List.length_take]
      omega
    cases hm : memchr 10 (s.drop pos) with
    | none =>
      have h10 : (10 : Nat) ∉ s.drop pos := memchr_eq_none.mp hm
      simp only [Option.getD_none]
      rw [if_pos (by omega)]
      have hBfull : (s.drop pos).take (s.length - pos) = s.drop pos :=
        List.take_of_length_le (by simp)
      refine ⟨_, _, rfl, ?_⟩
      rw [hBfull]
      rw [show buffer.take target ++ s.drop pos ++
            buffer.drop (target + (s.length - pos)) =
          (buffer.take target ++ s.drop pos) ++
            buffer.drop (target + (s.length - pos)) from by
        simp [List.append_assoc]]
      rw [List.take_left' (by rw [List.length_append, hAlen, List.length_drop])]
      rw [htk]
      conv_rhs => rw [← List.take_append_drop pos s]
      rw [List.filter_append]
      congr 1
      exact (List.filter_eq_self.mpr (by
        intro a ha
        simp only [ne_eq, decide_eq_true_eq]
        intro hc
        subst hc
        exact h10 ha)).symm
    | some i =>
      obtain ⟨hi_lt, hi_get, hi_take⟩ := memchr_eq_some hm
      rw [List.length_drop] at hi_lt
      simp only [Option.getD_some]
      have hBlen : ((s.drop pos).take i).length = i := by
        rw [List.length_take, List.length_drop]
        omega
      have hfilterB : ((s.drop pos).take i).filter (fun x => x ≠ 10) =
          (s.drop pos).take i :=
        List.filter_eq_self.mpr (by
          intro a ha
          simp only [ne_eq, decide_eq_true_eq]
          intro hc
          subst hc
          exact hi_take ha)
      have hgetelem : (s.drop pos)[i]? = some 10 := by
        rw [← List.get?_eq_getElem?]
        exact hi_get
      have hnext : (s.take (pos + i + 1)).filter (fun x => x ≠ 10) =
          (s.take pos).filter (fun x => x ≠ 10) ++ (s.drop pos).take i := by
        rw [show pos + i + 1 = pos + (i + 1) from by omega]
        rw [List.take_add, List.filter_append]
        congr 1
        rw [List.take_succ, hgetelem]
        rw [List.filter_append, hfilterB]
        simp
      have hbuf2take : (buffer.take target ++ (s.drop pos).take i ++
            buffer.drop (target + i)).take (target + i) =
          buffer.take target ++ (s.drop pos).take i := by
        rw [show buffer.take target ++ (s.drop pos).take i ++
              buffer.drop (target + i) =
            (buffer.take target ++ (s.drop pos).take i) ++
              buffer.drop (target + i) from by
          simp [List.append_assoc]]
        exact List.take_left' (by rw [List.length_append, hAlen, hBlen])
      by_cases hcond : pos + i + 1 ≥ s.length
      · rw [if_pos hcond]
        refine ⟨_, _, rfl, ?_⟩
        rw [hbuf2take, htk, ← hnext]
        rw [List.take_of_length_le (by omega)]
      · rw [if_neg hcond]
        have hbuf2len : (buffer.take target ++ (s.drop pos).take i ++
            buffer.drop (target + i)).length = s.length := by
          simp only [List.length_append, hAlen, hBlen, List.length_drop]
          omega
        exact ih (pos + i + 1) (target + i) _ (by omega) (by omega) hbuf2len
          (by rw [hnext, List.length_append, ← htg, hBlen])
          (by rw [hbuf2take, htk, hnext])

/-- `copy_sequential` computes exactly the LF-filtered sequence span. -/
theorem copy_sequential_eq_filter (fs : FastaSequence) :
    fs.copy_sequential = some (fs.sequence.filter (fun x => x ≠ 10)) := by
  obtain ⟨buf, tgt, hrun, hres⟩ :=
    copyLoop_filter fs.sequence fs.sequence.length 0 0
      (List.replicate fs.sequence.length 0)
      (by omega) (by omega) (by simp) (by simp) (by simp)
  rw [FastaSequence.copy_sequential]
  rw [show fs.size_hint = fs.sequence.length from rfl]
  rw [hrun]
  simp only [Option.bind_eq_bind, Option.some_bind, Option.pure_def]
  rw [hres]

theorem parseLoopF_eq (data : List Nat) :
    ∀ fuel cursor, data.length - cursor < fuel →
      parseLoopF data fuel cursor = parseLoop data cursor := by
  intro fuel
  induction fuel with
  | zero => intro cursor h; omega
  | succ fuel ih =>
    intro cursor h
    rw [parseLoopF, parseLoop]
    cases hg : data.get? cursor with
    | none => rfl
    | some b =>
      simp only [Option.bind_eq_bind, Option.some_bind]
      by_cases hb : b ≠ 62
      · rw [if_pos hb, if_pos hb]
      · rw [if_neg hb, if_neg hb]
        cases checkedSlice data (cursor + 1) data.length with
        | none => rfl
        | some tail =>
          simp only [Option.bind_eq_bind, Option.some_bind]
          cases checkedSub data.length (cursor + 1) with
          | none => rfl
          | some fallback =>
            simp only [Option.bind_eq_bind, Option.some_bind]
            cases checkedSlice data (cursor + 1)
                (cursor + 1 + (memchr 10 tail).getD fallback) with
            | none => rfl
            | some description =>
              simp only [Option.bind_eq_bind, Option.some_bind]
              by_cases h1 : cursor + 1 + (memchr 10 tail).getD fallback + 1 ≥ data.length
              · rw [dif_pos h1, dif_pos h1]
              · rw [dif_neg h1, dif_neg h1]
                cases checkedSlice data
                    (cursor + 1 + (memchr 10 tail).getD fallback + 1) data.length with
                | none => rfl
                | some tail2 =>
                  simp only [Option.bind_eq_bind, Option.some_bind]
                  cases checkedSub data.length
                      (cursor + 1 + (memchr 10 tail).getD fallback + 1) with
                  | none => rfl
                  | some fallback2 =>
                    simp only [Option.bind_eq_bind, Option.some_bind]
                    cases checkedSlice data
                        (cursor + 1 + (memchr 10 tail).getD fallback + 1)
                        (cursor + 1 + (memchr 10 tail).getD fallback + 1 +
                          (memchr 62 tail2).getD fallback2) with
                    | none => rfl
                    | some sequence =>
                      simp only [Option.bind_eq_bind, Option.some_bind]
                      by_cases h2 : cursor + 1 + (memchr 10 tail).getD fallback + 1 +
                          (memchr 62 tail2).getD fallback2 ≥ data.length
                      · rw [dif_pos h2, dif_pos h2]
                      · rw [dif_neg h2, dif_neg h2]
                        rw [ih _ (by omega)]

theorem copyLoopF_eq (s : List Nat) :
    ∀ fuel buffer target pos, s.length - pos < fuel →
      copyLoopF s fuel buffer target pos = copyLoop s buffer target pos := by
  intro fuel
  induction fuel with
  | zero => intro buffer target pos h; omega
  | succ fuel ih =>
    intro buffer target pos h
    rw [copyLoopF, copyLoop]
    cases checkedSlice s pos s.length with
    | none => rfl
    | some tail =>
      simp only [Option.bind_eq_bind, Option.some_bind]
      cases checkedSub s.length pos with
      | none => rfl
      | some fallback =>
        simp only [Option.bind_eq_bind, Option.some_bind]
        cases checkedSlice s pos (pos + (memchr 10 tail).getD fallback) with
        | none => rfl
        | some src =>
          simp only [Option.bind_eq_bind, Option.some_bind]
          cases checkedCopy buffer target (target + (memchr 10 tail).getD fallback) src with
          | none => rfl
          | some buffer2 =>
            simp only [Option.bind_eq_bind, Option.some_bind]
            by_cases h1 : pos + (memchr 10 tail).getD fallback + 1 ≥ s.length
            · rw [dif_pos h1, dif_pos h1]
            · rw [dif_neg h1, dif_neg h1]
              exact ih _ _ _ (by omega)

/-- Filtering out the LF bytes shortens a list by exactly its LF count. -/
theorem length_filter_ne (l : List Nat) :
    (l.filter (fun x => x ≠ 10)).length = l.length - l.count 10 := by
  induction l with
  | nil => simp
  | cons b t ih =>
    have hcle : t.count 10 ≤ t.length := List.count_le_length 10 t
    by_cases hb : b = 10
    · subst hb
      rw [List.filter_cons_of_neg (by simp)]
      rw [List.count_cons_self]
      rw [ih]
      simp only [List.length_cons]
      omega
    · rw [List.filter_cons_of_pos (by simp [hb])]
      rw [List.count_cons_of_ne (fun hc => hb hc.symm)]
      simp only [List.length_cons]
      rw [ih]
      omega

/-- Dropping past an initial segment and one delimiter byte. -/
theorem drop_append_cons (A : List Nat) (b : Nat) (Z : List Nat) :
    (A ++ b :: Z).drop (A.length + 1) = Z := by
  induction A with
  | nil => simp
  | cons a t ih => simpa using ih

/-- Record encodings begin with the `>` marker, so a flattened run of
encodings followed by a `>` always begins with a `>`. -/
theorem flatten_starts_with_marker (rest : List FastaSequence) (x : List Nat) :
    ∃ w, (rest.map record_bytes).flatten ++ 62 :: x = 62 :: w := by
  cases rest with
  | nil => exact ⟨x, by simp⟩
  | cons r rest' =>
    refine ⟨r.description ++ 10 :: (r.sequence ++
      ((rest'.map record_bytes).flatten ++ 62 :: x)), ?_⟩
    simp [record_bytes]

/-- If the suffix at the cursor is a lone description line running to the
end of the buffer (`hend`: the first LF of `t`, if any, is its last
byte), the loop fails with `EmptySequence`. -/
theorem parseLoop_trailing_description {data : List Nat} {cursor : Nat} {t : List Nat}
    (hdrop : data.drop cursor = 62 :: t)
    (hend : t.length ≤ (memchr 10 t).getD t.length + 1) :
    parseLoop data cursor = some (Except.error ParseError.emptySequence) := by
  have hne : data.drop cursor ≠ [] := by rw [hdrop]; simp
  have hlt : cursor < data.length := by
    by_contra hcon
    exact hne (List.drop_eq_nil_of_le (by omega))
  have hlen : data.length - cursor = t.length + 1 := by
    have := congrArg List.length hdrop
    rw [List.length_drop] at this
    simpa using this
  have hg : data.get? cursor = some 62 := by
    have h0 := List.get?_drop data cursor 0
    rw [hdrop] at h0
    simpa using h0.symm
  have hd1 : data.drop (cursor + 1) = t := by
    rw [← List.drop_drop, hdrop]
    simp
  have hsub : data.length - (cursor + 1) = t.length := by omega
  rw [parseLoop_eq_of_marker hlt hg, parseStep, hd1, hsub]
  cases hm : memchr 10 t with
  | none =>
    simp only [Option.getD_none]
    rw [if_pos (by omega)]
  | some i =>
    have hiend : t.length ≤ i + 1 := by
      rw [hm] at hend
      simpa using hend
    simp only [Option.getD_some]
    rw [if_pos (by omega)]

/-- Errors raised after a run of complete, well-delimited records
propagate unchanged out of the loop: if the suffix at the cursor is the
encoding of `recs` followed by a `>`, and the loop fails at the position
of that `>`, then the loop fails at the cursor with the same error. -/
theorem parseLoop_error_propagates (data : List Nat) :
    ∀ recs : List FastaSequence,
      (∀ r ∈ recs, 10 ∉ r.description ∧ 62 ∉ r.sequence) →
      ∀ cursor x e,
        data.drop cursor = (recs.map record_bytes).flatten ++ 62 :: x →
        parseLoop data (cursor + ((recs.map record_bytes).flatten).length) =
          some (Except.error e) →
        parseLoop data cursor = some (Except.error e) := by
  intro recs
  induction recs with
  | nil =>
    intro _ cursor x e _ herr
    simpa using herr
  | cons r rest ih =>
    intro hprops cursor x e hdrop herr
    obtain ⟨hD, hS⟩ := hprops r (List.mem_cons_self r rest)
    have hprops' : ∀ r' ∈ rest, 10 ∉ r'.description ∧ 62 ∉ r'.sequence :=
      fun r' hr' => hprops r' (List.mem_cons_of_mem r hr')
    obtain ⟨w, hw⟩ := flatten_starts_with_marker rest x
    have hdrop' : data.drop cursor =
        62 :: (r.description ++ 10 :: (r.sequence ++
          ((rest.map record_bytes).flatten ++ 62 :: x))) := by
      rw [hdrop]
      simp [record_bytes]
    have hne : data.drop cursor ≠ [] := by rw [hdrop']; simp
    have hlt : cursor < data.length := by
      by_contra hcon
      exact hne (List.drop_eq_nil_of_le (by omega))
    have hlen := congrArg List.length hdrop'
    rw [List.length_drop] at hlen
    simp only [List.length_cons, List.length_append] at hlen
    have hg : data.get? cursor = some 62 := by
      have h0 := List.get?_drop data cursor 0
      rw [hdrop'] at h0
      simpa using h0.symm
    have hd1 : data.drop (cursor + 1) =
        r.description ++ 10 :: (r.sequence ++
          ((rest.map record_bytes).flatten ++ 62 :: x)) := by
      rw [← List.drop_drop, hdrop']
      simp
    have hd2 : data.drop (cursor + 1 + r.description.length + 1) =
        r.sequence ++ 62 :: w := by
      have hstep : data.drop (cursor + 1 + r.description.length + 1) =
          (data.drop (cursor + 1)).drop (r.description.length + 1) := by
        rw [List.drop_drop]
        congr 1
      rw [hstep, hd1, drop_append_cons, hw]
    have hd3 : data.drop (cursor + 1 + r.description.length + 1 + r.sequence.length) =
        (rest.map record_bytes).flatten ++ 62 :: x := by
      have hstep : data.drop (cursor + 1 + r.description.length + 1 + r.sequence.length) =
          (data.drop (cursor + 1 + r.description.length + 1)).drop r.sequence.length := by
        rw [List.drop_drop]
      rw [hstep, hd2, List.drop_left, hw]
    have herr' : parseLoop data (cursor + 1 + r.description.length + 1 + r.sequence.length +
        ((rest.map record_bytes).flatten).length) = some (Except.error e) := by
      have hidx : cursor + (((r :: rest).map record_bytes).flatten).length =
          cursor + 1 + r.description.length + 1 + r.sequence.length +
            ((rest.map record_bytes).flatten).length := by
        simp only [List.map_cons, List.flatten_cons, List.length_append,
          record_bytes, List.length_cons]
        omega
      rw [← hidx]
      exact herr
    have hrec := ih hprops' (cursor + 1 + r.description.length + 1 + r.sequence.length)
      x e hd3 herr'
    rw [parseLoop_eq_of_marker hlt hg, parseStep, hd1, memchr_first_at hD]
    simp only [Option.getD_some]
    rw [if_neg (by omega)]
    rw [hd2, memchr_first_at hS]
    simp only [Option.getD_some]
    rw [if_neg (by omega)]
    rw [hrec]
    rfl

/-! ### The claims -/

/-- C9: parsing an empty (zero-length) buffer succeeds and yields a
`Fasta` with zero records; it is not an error. -/
theorem parse_fasta_empty : parse_fasta [] = some (Except.ok ⟨[]⟩) := rfl

/-- C5: for every raw sequence span, `copy_sequential` returns (without
panicking) exactly the span with every LF (`0x0A`) byte removed and all
other bytes preserved in their original order, and the length of the
returned buffer is the span length minus the number of LF bytes. -/
theorem copy_sequential_correct (fs : FastaSequence) :
    fs.copy_sequential = some (fs.sequence.filter (fun x => x ≠ 10)) ∧
    fs.copy_sequential.map List.length =
      some (fs.sequence.length - fs.sequence.count 10) := by
  refine ⟨copy_sequential_eq_filter fs, ?_⟩
  rw [copy_sequential_eq_filter fs]
  simp only [Option.map_some']
  rw [length_filter_ne]

/-- C2: for every raw sequence span, collecting the lazy LF-filtering
iterator `iter` yields exactly the byte string that `copy_sequential`
returns, whatever the span content (zero, one or many embedded LFs,
leading or trailing blank lines included). -/
theorem iter_eq_copy_sequential (fs : FastaSequence) :
    fs.copy_sequential = some fs.iter :=
  copy_sequential_eq_filter fs

/-- C4: `parse_fasta` returns a value on every input and
`copy_sequential` returns a value on every span — every checked index,
slice, copy and subtraction in the model succeeds, so neither function
panics; in particular `copy_sequential` succeeds on every record of a
successful parse. -/
theorem no_panic :
    (∀ data : List Nat, (parse_fasta data).isSome) ∧
    (∀ fs : FastaSequence, fs.copy_sequential.isSome) := by
  constructor
  · intro data
    rw [parse_fasta]
    by_cases hd : data.isEmpty
    · rw [if_pos hd]
      rfl
    · rw [if_neg hd]
      have hlen : 0 < data.length := by
        cases data with
        | nil => simp at hd
        | cons a t => simp
      obtain ⟨r, hr, -, -⟩ := parseLoop_spec data data.length 0 (by omega) hlen
      rw [hr]
      cases r <;> rfl
  · intro fs
    rw [copy_sequential_eq_filter fs]
    rfl

/-- C7: both loops terminate in at most linearly many iterations: because
the cursor strictly increases each round, a fuel budget of one more than
the buffer length already makes the fuel-bounded loops agree with the
loops themselves, on every input. -/
theorem loops_terminate_linear :
    (∀ data : List Nat, parseLoopF data (data.length + 1) 0 = parseLoop data 0) ∧
    (∀ fs : FastaSequence, copyLoopF fs.sequence (fs.sequence.length + 1)
        (List.replicate fs.size_hint 0) 0 0 =
      copyLoop fs.sequence (List.replicate fs.size_hint 0) 0 0) := by
  constructor
  · intro data
    exact parseLoopF_eq data (data.length + 1) 0 (by omega)
  · intro fs
    exact copyLoopF_eq fs.sequence (fs.sequence.length + 1) _ 0 0 (by omega)

/-- C3: `parse_fasta` returns `InvalidDescription { invalid := b }` if and
only if the buffer is non-empty and its very first byte is `b`, with
`b ≠ 0x3E`; a non-marker byte at a later record boundary can never raise
this error, and the byte carried is always the buffer's first byte. -/
theorem invalid_description_iff (data : List Nat) (b : Nat) :
    parse_fasta data = some (Except.error (ParseError.invalidDescription b)) ↔
      data ≠ [] ∧ data.head? = some b ∧ b ≠ 62 := by
  constructor
  · intro h
    cases data with
    | nil => simp [parse_fasta] at h
    | cons a t =>
      have key : a = b ∧ b ≠ 62 := by
        by_cases ha : a = 62
        · exfalso
          obtain ⟨r, hr, -, hmark⟩ :=
            parseLoop_spec (a :: t) (a :: t).length 0 (by omega) (by simp)
          rw [parse_fasta, if_neg (by simp), hr] at h
          cases r with
          | ok l => simp at h
          | error e =>
            have he : e = ParseError.invalidDescription b :=
              Except.error.inj (Option.some.inj h)
            exact hmark (by simp [ha]) b (by rw [he])
        · have hstep := parseLoop_eq_of_invalid
            (show (a :: t).get? 0 = some a from rfl) ha
          rw [parse_fasta, if_neg (by simp), hstep] at h
          have hab : a = b :=
            ParseError.invalidDescription.inj (Except.error.inj (Option.some.inj h))
          exact ⟨hab, hab ▸ ha⟩
      exact ⟨by simp, by simp [key.1], key.2⟩
  · rintro ⟨hne, hhead, hb62⟩
    cases data with
    | nil => exact absurd rfl hne
    | cons a t =>
      have ha : a = b := by simpa using hhead
      subst ha
      rw [parse_fasta, if_neg (by simp)]
      rw [parseLoop_eq_of_invalid (show (a :: t).get? 0 = some a from rfl) hb62]

/-- C8: on every successful parse, every record's raw sequence span is
free of `>` bytes (in particular it never includes the `>` that
terminates it) and every record's description span is free of LF bytes
(in particular it never includes the LF that terminates its line). -/
theorem spans_boundary_exact (data : List Nat) (f : Fasta)
    (h : parse_fasta data = some (Except.ok f)) :
    ∀ rec ∈ f.sequences, 62 ∉ rec.sequence ∧ 10 ∉ rec.description := by
  by_cases hd : data.isEmpty
  · rw [parse_fasta, if_pos hd] at h
    obtain rfl : Fasta.mk [] = f := Except.ok.inj (Option.some.inj h)
    intro rec hrec
    simp at hrec
  · rw [parse_fasta, if_neg hd] at h
    have hlen : 0 < data.length := by
      cases data with
      | nil => simp at hd
      | cons a t => simp
    obtain ⟨r, hr, hok, -⟩ := parseLoop_spec data data.length 0 (by omega) hlen
    rw [hr] at h
    cases r with
    | error e => simp at h
    | ok l =>
      obtain rfl : Fasta.mk l = f := Except.ok.inj (Option.some.inj h)
      exact (hok l rfl).2

/-- Witness for C8 at the concrete input `">\nA"`. -/
theorem spans_boundary_exact_witness :
    parse_fasta [62, 10, 65] = some (Except.ok ⟨[⟨[], [65]⟩]⟩) ∧
    (∀ rec ∈ (Fasta.mk [⟨[], [65]⟩]).sequences,
      62 ∉ rec.sequence ∧ 10 ∉ rec.description) := by
  have h0 : parseLoop [62, 10, 65] 0 = some (Except.ok [⟨[], [65]⟩]) := by
    rw [parseLoop]
    simp [checkedSlice, checkedSub, memchr]
  have hp : parse_fasta [62, 10, 65] = some (Except.ok ⟨[⟨[], [65]⟩]⟩) := by
    rw [parse_fasta, if_neg (by simp), h0]
  exact ⟨hp, spans_boundary_exact _ _ hp⟩

/-- C6: round-trip identity — on every successful parse, re-encoding each
record as the byte `>`, its description span, the byte LF, and its raw
sequence span, and concatenating the encodings in order, reproduces the
input buffer exactly; hence each record's encoding equals the contiguous
slice of the input it was parsed from. -/
theorem round_trip (data : List Nat) (f : Fasta)
    (h : parse_fasta data = some (Except.ok f)) :
    (f.sequences.map record_bytes).flatten = data := by
  by_cases hd : data.isEmpty
  · rw [parse_fasta, if_pos hd] at h
    obtain rfl : Fasta.mk [] = f := Except.ok.inj (Option.some.inj h)
    have hdata : data = [] := by simpa using hd
    subst hdata
    rfl
  · rw [parse_fasta, if_neg hd] at h
    have hlen : 0 < data.length := by
      cases data with
      | nil => simp at hd
      | cons a t => simp
    obtain ⟨r, hr, hok, -⟩ := parseLoop_spec data data.length 0 (by omega) hlen
    rw [hr] at h
    cases r with
    | error e => simp at h
    | ok l =>
      obtain rfl : Fasta.mk l = f := Except.ok.inj (Option.some.inj h)
      have := (hok l rfl).1
      simpa using this

/-- Witness for C6 at the concrete input `">a\nX"`. -/
theorem round_trip_witness :
    parse_fasta [62, 97, 10, 88] = some (Except.ok ⟨[⟨[97], [88]⟩]⟩) ∧
    ((Fasta.mk [⟨[97], [88]⟩]).sequences.map record_bytes).flatten =
      [62, 97, 10, 88] := by
  have h0 : parseLoop [62, 97, 10, 88] 0 = some (Except.ok [⟨[97], [88]⟩]) := by
    rw [parseLoop]
    simp [checkedSlice, checkedSub, memchr]
  have hp : parse_fasta [62, 97, 10, 88] = some (Except.ok ⟨[⟨[97], [88]⟩]⟩) := by
    rw [parse_fasta, if_neg (by simp), h0]
  exact ⟨hp, round_trip _ _ hp⟩

/-- C1 counterexample: in `">a\n>b\nC"` a valid description line is
immediately followed by another `>` with zero bytes in between, yet
`parse_fasta` does not return the `EmptySequence` error: it succeeds and
the first record's raw sequence span is empty. -/
theorem description_then_marker_counterexample :
    parse_fasta [62, 97, 10, 62, 98, 10, 67] =
      some (Except.ok ⟨[⟨[97], []⟩, ⟨[98], [67]⟩]⟩) := by
  have h3 : parseLoop [62, 97, 10, 62, 98, 10, 67] 3 =
      some (Except.ok [⟨[98], [67]⟩]) := by
    rw [parseLoop]
    simp [checkedSlice, checkedSub, memchr]
  have h0 : parseLoop [62, 97, 10, 62, 98, 10, 67] 0 =
      some (Except.ok [⟨[97], []⟩, ⟨[98], [67]⟩]) := by
    rw [parseLoop]
    simp [checkedSlice, checkedSub, memchr, h3]
  rw [parse_fasta, if_neg (by simp), h0]

/-- C1 (amended): in every buffer in which a valid description line is
immediately followed by end-of-buffer — any number of complete records
(records whose description spans are LF-free and sequence spans are
`>`-free, which by C8 is every parsable record), then a final `>`,
an LF-free description `d`, and optionally the description's terminating
LF — `parse_fasta` returns the `EmptySequence` error, the error
propagating out through all enclosing records. A description line
immediately followed by another `>` instead produces an empty-but-valid
record, so a record's raw sequence span can be empty on a successful
parse. -/
theorem empty_sequence_at_end (recs : List FastaSequence) (d : List Nat)
    (hrecs : ∀ r ∈ recs, 10 ∉ r.description ∧ 62 ∉ r.sequence)
    (hnl : 10 ∉ d) :
    parse_fasta ((recs.map record_bytes).flatten ++ 62 :: d) =
      some (Except.error ParseError.emptySequence) ∧
    parse_fasta ((recs.map record_bytes).flatten ++ 62 :: (d ++ [10])) =
      some (Except.error ParseError.emptySequence) := by
  constructor
  · have hA : parseLoop ((recs.map record_bytes).flatten ++ 62 :: d)
        ((recs.map record_bytes).flatten).length =
        some (Except.error ParseError.emptySequence) := by
      refine parseLoop_trailing_description (List.drop_left _ _) ?_
      rw [memchr_eq_none.mpr hnl]
      simp
    have h0 : parseLoop ((recs.map record_bytes).flatten ++ 62 :: d) 0 =
        some (Except.error ParseError.emptySequence) := by
      refine parseLoop_error_propagates _ recs hrecs 0 d ParseError.emptySequence
        (by rw [List.drop_zero]) (by simpa using hA)
    rw [parse_fasta, if_neg (by simp), h0]
  · have hA : parseLoop ((recs.map record_bytes).flatten ++ 62 :: (d ++ [10]))
        ((recs.map record_bytes).flatten).length =
        some (Except.error ParseError.emptySequence) := by
      refine parseLoop_trailing_description (List.drop_left _ _) ?_
      rw [memchr_first_at hnl]
      simp
    have h0 : parseLoop ((recs.map record_bytes).flatten ++ 62 :: (d ++ [10])) 0 =
        some (Except.error ParseError.emptySequence) := by
      refine parseLoop_error_propagates _ recs hrecs 0 (d ++ [10]) ParseError.emptySequence
        (by rw [List.drop_zero]) (by simpa using hA)
    rw [parse_fasta, if_neg (by simp), h0]

/-- Witness for the amended C1 at the concrete inputs `">a\nX>b"` and
`">a\nX>b\n"` (one complete record, then a trailing bare description). -/
theorem empty_sequence_at_end_witness :
    (∀ r ∈ [(⟨[97], [88]⟩ : FastaSequence)], 10 ∉ r.description ∧ 62 ∉ r.sequence) ∧
    (10 : Nat) ∉ [98] ∧
    parse_fasta [62, 97, 10, 88, 62, 98] =
      some (Except.error ParseError.emptySequence) ∧
    parse_fasta [62, 97, 10, 88, 62, 98, 10] =
      some (Except.error ParseError.emptySequence) := by
  have h1 : ∀ r ∈ [(⟨[97], [88]⟩ : FastaSequence)],
      10 ∉ r.description ∧ 62 ∉ r.sequence := by decide
  have h2 : (10 : Nat) ∉ [98] := by decide
  obtain ⟨ha, hb⟩ := empty_sequence_at_end [⟨[97], [88]⟩] [98] h1 h2
  refine ⟨h1, h2, ?_, ?_⟩
  · simpa [record_bytes] using ha
  · simpa [record_bytes] using hb

end FireFasta
